import Mathlib

/-!
# Verification of the `torrentx` BitTorrent client

A shallow embedding, in Lean 4, of the Go sources of the `torrentx`
repository (bencode decoder, torrent piece bookkeeping, download
coordinator, peer-wire handshake and messages, bitfield, and the `main`
entry point), together with theorems settling the specification claims
about them.

Bytes are modelled as `UInt8`, Go byte slices as `List UInt8`, Go `int` /
`int64` as `Int` (with explicit truncated `%` where Go uses it), and Go
slices of the original input as `take`/`drop` of the input list.  Fallible
Go functions returning `(value, error)` become `Except`-valued functions.
The recursive bencode parser is driven by an explicit fuel parameter that
only ever produces the distinguished `outOfFuel` error when exhausted;
every theorem about a *successful* parse is therefore faithful to the
(fuel-free) Go original.
-/

set_option maxHeartbeats 1000000

namespace TorrentX

/-- ASCII bytes of a Lean string literal (all source fixtures are ASCII). -/
def strBytes (s : String) : List UInt8 :=
  s.data.map (fun c => UInt8.ofNat c.toNat)

/-- `bytes.IndexByte`: index of the first occurrence of `b`, if any
(Go returns `-1` when absent; the `Option` models that sentinel). -/
def indexOfByte : List UInt8 → UInt8 → Option Nat
  | [], _ => none
  | x :: xs, b =>
      if x = b then some 0
      else (indexOfByte xs b).map (· + 1)

/-! ## The `bencode` package (`bencode/bencode.go`) -/

/-- `'0' ≤ b ≤ '9'`, the digit test of `parseValue`'s dispatch. -/
def isDigit (b : UInt8) : Bool := 48 ≤ b ∧ b ≤ 57

/-- `MaxStringLength = 10 * 1024 * 1024`. -/
def MaxStringLength : Int := 10 * 1024 * 1024

/-- `MaxDepth = 50`. -/
def MaxDepth : Nat := 50

/-- The decoder's error values (`errors.New` / `fmt.Errorf` sites).  The
wrapping constructors `dictKey`/`dictValue`/`intParse` model the `%w`
wrapping in `parseDict` and `parseInteger`; `outOfFuel` is the artefact of
the fuel-driven embedding and corresponds to no Go error. -/
inductive BErr where
  | tooDeep
  | invalidInteger
  | leadingZero
  | negativeZero
  | invalidString
  | tooShort
  | invalidList
  | invalidDict
  | emptyData
  | stringTooLong
  | unknownType (b : UInt8)
  | intParse
  | dictKey (e : BErr)
  | dictValue (key : List UInt8) (e : BErr)
  | outOfFuel
  deriving DecidableEq, Repr

/-- A decoded bencode value (`any` in Go): `int64`, `[]byte`, `[]any`, or
`map[string]any`.  The dictionary is kept as an association list in
insertion order; `mapInsert` below reproduces Go map-assignment
(overwrite) semantics. -/
inductive BVal where
  | int (n : Int)
  | str (s : List UInt8)
  | list (xs : List BVal)
  | dict (xs : List (List UInt8 × BVal))

/-- `result[key] = val` on a Go map, on the association-list model:
replace the binding in place when the key is present, append otherwise. -/
def mapInsert (k : List UInt8) (v : BVal) : List (List UInt8 × BVal) →
    List (List UInt8 × BVal)
  | [] => [(k, v)]
  | (k', v') :: rest =>
      if k' = k then (k', v) :: rest else (k', v') :: mapInsert k v rest

/-- Go map lookup `m[key]` on the association-list model. -/
def mapLookup (k : List UInt8) : List (List UInt8 × BVal) → Option BVal
  | [] => none
  | (k', v') :: rest => if k' = k then some v' else mapLookup k rest

/-- `strconv.ParseInt(s, 10, 64)` restricted to what the decoder needs:
an optional sign followed by a non-empty run of digits, with the value
required to fit in a signed 64-bit integer (`none` models a non-nil
error).  `strconv.Atoi` is this function at `int` = 64 bits. -/
def goParseInt (s : List UInt8) : Option Int :=
  match s with
  | [] => none
  | c :: rest =>
      let neg : Bool := c = 45
      let digits : List UInt8 := if c = 45 ∨ c = 43 then rest else s
      if digits = [] then none
      else if digits.all isDigit then
        let n : Nat := digits.foldl (fun acc d => acc * 10 + (d.toNat - 48)) 0
        if neg then
          if (n : Int) ≤ 2 ^ 63 then some (-(n : Int)) else none
        else
          if (n : Int) ≤ 2 ^ 63 - 1 then some (n : Int) else none
      else none

/-- `parseInteger` (bencode.go).  Returns the parsed `int64` and the number
of bytes consumed (`endIdx + 1`).  `data[1:endIdx]` is modelled as
`(data.drop 1).take (endIdx - 1)`; the two agree whenever the function is
reached through `parseValue` (where `data[0] = 'i'`, so the first `'e'`
cannot sit at index 0). -/
def parseInteger (data : List UInt8) : Except BErr (Int × Nat) :=
  if data.length < 3 then .error .invalidInteger
  else
    match indexOfByte data 101 with
    | none => .error .invalidInteger
    | some endIdx =>
        let body := (data.drop 1).take (endIdx - 1)
        match body with
        | [] => .error .invalidInteger
        | b0 :: btail =>
            if b0 = 48 ∧ btail ≠ [] then .error .leadingZero
            else if b0 = 45 then
              match btail with
              | [] => .error .invalidInteger
              | b1 :: btail2 =>
                  if b1 = 48 then
                    if btail2 = [] then .error .negativeZero
                    else .error .leadingZero
                  else
                    match goParseInt (b0 :: btail) with
                    | none => .error .intParse
                    | some n => .ok (n, endIdx + 1)
            else
              match goParseInt (b0 :: btail) with
              | none => .error .intParse
              | some n => .ok (n, endIdx + 1)

/-- `parseString` (bencode.go).  Returns the string bytes (a slice of the
input) and the number of bytes consumed (`colonIdx + 1 + length`). -/
def parseString (data : List UInt8) : Except BErr (List UInt8 × Nat) :=
  match indexOfByte data 58 with
  | none => .error .invalidString
  | some colonIdx =>
      if colonIdx = 0 then .error .invalidString
      else
        let lenBuf := data.take colonIdx
        if lenBuf.head? = some 48 ∧ 1 < lenBuf.length then .error .leadingZero
        else
          match goParseInt lenBuf with
          | none => .error .invalidString
          | some len =>
              if len < 0 then .error .invalidString
              else if MaxStringLength < len then .error .stringTooLong
              else
                let totalNeeded := colonIdx + 1 + len.toNat
                if data.length < totalNeeded then .error .tooShort
                else .ok ((data.drop (colonIdx + 1)).take len.toNat, totalNeeded)

/-- The bytes of the key `"info"` trapped by `parseDict`. -/
def infoKey : List UInt8 := strBytes ("info")

mutual

/-- `parseValue` (bencode.go).  `depth` is the decoder's `d.depth` field at
the moment of the call and `raw` its `d.RawInfo` field, threaded as state;
the result carries the value, the bytes consumed, and the updated
`RawInfo`.  `fuel` only ever manufactures the embedding-only `outOfFuel`
error. -/
def parseValue (fuel depth : Nat) (raw : Option (List UInt8)) (data : List UInt8) :
    Except BErr (BVal × Nat × Option (List UInt8)) :=
  match fuel with
  | 0 => .error .outOfFuel
  | fuel + 1 =>
      match data with
      | [] => .error .emptyData
      | b :: _ =>
          if b = 105 then (parseInteger data).map (fun p => (.int p.1, p.2, raw))
          else if isDigit b then (parseString data).map (fun p => (.str p.1, p.2, raw))
          else if b = 108 then parseList fuel depth raw data
          else if b = 100 then parseDict fuel depth raw data
          else .error (.unknownType b)
termination_by structural fuel

/-- `parseList` (bencode.go): the `d.depth++` prologue, depth/shape checks,
and the scanning loop (`parseListLoop`). -/
def parseList (fuel depth : Nat) (raw : Option (List UInt8)) (data : List UInt8) :
    Except BErr (BVal × Nat × Option (List UInt8)) :=
  match fuel with
  | 0 => .error .outOfFuel
  | fuel + 1 =>
      if MaxDepth < depth + 1 then .error .tooDeep
      else if data.length < 2 ∨ data.head? ≠ some 108 then .error .invalidList
      else parseListLoop fuel (depth + 1) raw data 1 []
termination_by structural fuel

/-- The `for currentPosition < len(data) && data[currentPosition] != 'e'`
loop of `parseList`, together with the post-loop terminator check.  `data`
stays the whole slice given to `parseList`; `pos` is `currentPosition`. -/
def parseListLoop (fuel depth : Nat) (raw : Option (List UInt8)) (data : List UInt8)
    (pos : Nat) (acc : List BVal) :
    Except BErr (BVal × Nat × Option (List UInt8)) :=
  match fuel with
  | 0 => .error .outOfFuel
  | fuel + 1 =>
      match data.get? pos with
      | none => .error .invalidList
      | some b =>
          if b = 101 then .ok (.list acc, pos + 1, raw)
          else
            match parseValue fuel depth raw (data.drop pos) with
            | .error e => .error e
            | .ok (v, consumed, raw') =>
                parseListLoop fuel depth raw' data (pos + consumed) (acc ++ [v])
termination_by structural fuel

/-- `parseDict` (bencode.go): the `d.depth++` prologue, depth/shape checks,
and the scanning loop (`parseDictLoop`). -/
def parseDict (fuel depth : Nat) (raw : Option (List UInt8)) (data : List UInt8) :
    Except BErr (BVal × Nat × Option (List UInt8)) :=
  match fuel with
  | 0 => .error .outOfFuel
  | fuel + 1 =>
      if MaxDepth < depth + 1 then .error .tooDeep
      else if data.length < 2 ∨ data.head? ≠ some 100 then .error .invalidDict
      else parseDictLoop fuel (depth + 1) raw data 1 []
termination_by structural fuel

/-- The key/value loop of `parseDict`, including the `RawInfo` trap: when
the key is `"info"` and this dictionary sits at depth 1, `RawInfo` is set
to `data[currentPosition : currentPosition+consumedVal]`, the verbatim
bytes of the value just parsed. -/
def parseDictLoop (fuel depth : Nat) (raw : Option (List UInt8)) (data : List UInt8)
    (pos : Nat) (acc : List (List UInt8 × BVal)) :
    Except BErr (BVal × Nat × Option (List UInt8)) :=
  match fuel with
  | 0 => .error .outOfFuel
  | fuel + 1 =>
      match data.get? pos with
      | none => .error .invalidDict
      | some b =>
          if b = 101 then .ok (.dict acc, pos + 1, raw)
          else
            match parseString (data.drop pos) with
            | .error e => .error (.dictKey e)
            | .ok (key, consumedKey) =>
                let pos1 := pos + consumedKey
                if data.length ≤ pos1 then .error .invalidDict
                else
                  match parseValue fuel depth raw (data.drop pos1) with
                  | .error e => .error (.dictValue key e)
                  | .ok (v, consumedVal, raw1) =>
                      let raw2 := if key = infoKey ∧ depth = 1 then
                          some ((data.drop pos1).take consumedVal) else raw1
                      parseDictLoop fuel depth raw2 data (pos1 + consumedVal)
                        (mapInsert key v acc)
termination_by structural fuel

end

/-- `Decoder.Decode` on `NewDecoder(data)`, exposing both the returned
value and the decoder's `RawInfo` field after the call (a fresh decoder
has `depth = 0` and `RawInfo = nil`). -/
def decodeWithRaw (fuel : Nat) (data : List UInt8) :
    Except BErr (BVal × Nat × Option (List UInt8)) :=
  parseValue fuel 0 none data

/-- `Decoder.Decode`'s returned value alone. -/
def Decode (fuel : Nat) (data : List UInt8) : Except BErr BVal :=
  (decodeWithRaw fuel data).map (fun p => p.1)

/-! ## Go's builtin `copy` -/

/-- `copy(dest[start:], src)`: overwrite `dest` from position `start` with
as much of `src` as fits, leaving everything else unchanged. -/
def goCopy (dest : List α) (start : Nat) (src : List α) : List α :=
  dest.take start ++ src.take (dest.length - start) ++ dest.drop (start + src.length)

/-- The value `copy(dest[start:], src)` returns: the number of elements
copied. -/
def goCopyCount (dest : List α) (start : Nat) (src : List α) : Nat :=
  min src.length (dest.length - start)

/-! ## The `torrent` package (`torrent/torrent.go`) -/

/-- `File` (only the `Length` field is ever populated by `Open`). -/
structure GoFile where
  Length : Int

/-- `InfoDict`. -/
structure InfoDict where
  PieceLength : Int
  Pieces : List UInt8
  Name : List UInt8
  Length : Int
  Files : List GoFile

/-- `Torrent`. -/
structure Torrent where
  Announce : List UInt8
  Info : InfoDict

/-- `Piece` (the `[20]byte` hash is modelled as a byte list). -/
structure Piece where
  Index : Nat
  Hash : List UInt8
  Length : Int

/-- The `totalLength` computation shared by `CreatePieceList` and
`BuildTrackerURL`: `Info.Length` when positive, otherwise the sum of the
`Files` lengths. -/
def Torrent.totalLength (t : Torrent) : Int :=
  if 0 < t.Info.Length then t.Info.Length
  else (t.Info.Files.map GoFile.Length).sum

/-- `CreatePieceList` (its `infoHash` parameter is unused in the Go body
and omitted here).  `Int.tmod` is Go's truncated `%` on `int64`. -/
def Torrent.CreatePieceList (t : Torrent) : List Piece :=
  let rawHashes := t.Info.Pieces
  let numPieces := rawHashes.length / 20
  let totalLength := t.totalLength
  (List.range numPieces).map (fun i =>
    let pieceLength : Int :=
      if i = numPieces - 1 then
        let lastPiecelength := Int.tmod totalLength t.Info.PieceLength
        if 0 < lastPiecelength then lastPiecelength else t.Info.PieceLength
      else t.Info.PieceLength
    { Index := i, Hash := (rawHashes.drop (i * 20)).take 20, Length := pieceLength })

/-! ## The download coordinator (`Torrent.Download`, torrent/torrent.go) -/

/-- `PieceWork` (torrent/worker.go). -/
structure PieceWork where
  Index : Nat
  Hash : List UInt8
  Length : Int

/-- `PieceResult` (torrent/worker.go). -/
structure PieceResult where
  Index : Nat
  Buf : List UInt8

/-- The coordinator's observable state inside `Download`'s result loop:
the log of `file.WriteAt(buf, offset)` calls (offset/bytes pairs, in
order), the work re-queued on hash failure, and `doneCount`. -/
structure DLState where
  fileWrites : List (Int × List UInt8)
  workQueue : List PieceWork
  doneCount : Nat

/-- One iteration of `Download`'s result loop (torrent/torrent.go, the
body of `for doneCount < len(pieces)`), processing one received
`PieceResult`.  `sha1` abstracts `crypto/sha1.Sum`; `pieces` is the list
built by `CreatePieceList`; disk errors are not modelled (a `WriteAt` is
recorded in the log). -/
def downloadStep (sha1 : List UInt8 → List UInt8) (pieces : List Piece)
    (pieceLength : Int) (s : DLState) (res : PieceResult) : DLState :=
  let piece := pieces.getD res.Index ⟨0, [], 0⟩
  if sha1 res.Buf ≠ piece.Hash then
    { s with workQueue := s.workQueue ++ [⟨res.Index, piece.Hash, piece.Length⟩] }
  else
    { s with
        fileWrites := s.fileWrites ++ [((res.Index : Int) * pieceLength, res.Buf)],
        doneCount := s.doneCount + 1 }

/-- `Download`'s result loop run over a stream of received results, in
order, stopping as the Go loop does once `doneCount` reaches
`len(pieces)`. -/
def downloadLoop (sha1 : List UInt8 → List UInt8) (pieces : List Piece)
    (pieceLength : Int) : List PieceResult → DLState → DLState
  | [], s => s
  | r :: rs, s =>
      if s.doneCount < pieces.length then
        downloadLoop sha1 pieces pieceLength rs (downloadStep sha1 pieces pieceLength s r)
      else s

/-! ## The piece downloader (`attemptDownloadPiece`, torrent/worker.go) -/

/-- `maxBacklog = 10` (as Go `int`). -/
def maxBacklog : Int := 10

/-- `blockSize = 16384` (as Go `int`). -/
def blockSize : Int := 16384

/-- The state of `attemptDownloadPiece`'s loop: the piece buffer and the
`requested` / `downloaded` counters (Go `int`s). -/
structure AttemptState where
  buf : List UInt8
  requested : Int
  downloaded : Int

/-- The state on entry to `attemptDownloadPiece`: `buf := make([]byte,
pw.Length)`, both counters zero. -/
def attemptInit (pieceLength : Int) : AttemptState :=
  ⟨List.replicate pieceLength.toNat 0, 0, 0⟩

/-- One fuelled unrolling of the inner refill loop of
`attemptDownloadPiece`: while `requested < pw.Length &&
(requested-downloaded) < maxBacklog*blockSize`, send a request of
`min(blockSize, pw.Length-requested)` bytes and advance `requested`.
Only `requested` changes; the sends themselves have no further effect on
the state. -/
def refillAux : Nat → Int → Int → Int → Int
  | 0, _, requested, _ => requested
  | fuel + 1, pieceLength, requested, downloaded =>
      if requested < pieceLength ∧ requested - downloaded < maxBacklog * blockSize then
        let length := if pieceLength - requested < blockSize then pieceLength - requested
          else blockSize
        refillAux fuel pieceLength (requested + length) downloaded
      else requested

/-- The refill loop itself.  `(pieceLength - requested).toNat` bounds the
number of loop iterations (every send advances `requested` by at least
one byte while `requested < pieceLength`), so the fuel never runs out
with the loop guard still true: `refill_stops` below certifies that the
fuelled loop exits exactly where the Go loop does. -/
def refill (pieceLength requested downloaded : Int) : Int :=
  refillAux (pieceLength - requested).toNat pieceLength requested downloaded

/-- A message as seen by `attemptDownloadPiece`'s body: `none` for a
keep-alive (`msg == nil`) or any non-`PIECE` message (neither touches the
state), `some (begin, blockData)` for a `PIECE` message with payload
offset `begin` and block bytes `blockData`. -/
def PeerMsg := Option (Nat × List UInt8)

/-- Processing one received message: for a `PIECE` message,
`copy(buf[begin:], blockData)` and `downloaded += len(blockData)`. -/
def attemptStep (s : AttemptState) (m : PeerMsg) : AttemptState :=
  match m with
  | none => s
  | some (b, block) =>
      { s with buf := goCopy s.buf b block,
               downloaded := s.downloaded + (block.length : Int) }

/-- The outer `for downloaded < pw.Length` loop of `attemptDownloadPiece`,
driven by the stream of messages the peer delivers, recording the state
after every refill phase and after every processed message (every point
at which the counters change). -/
def attemptTrace (pieceLength : Int) :
    List PeerMsg → AttemptState → List AttemptState
  | [], _ => []
  | m :: ms, s =>
      if s.downloaded < pieceLength then
        let s1 := { s with requested := refill pieceLength s.requested s.downloaded }
        let s2 := attemptStep s1 m
        s1 :: s2 :: attemptTrace pieceLength ms s2
      else []

/-! ## The `p2p` package: handshake (p2p/handshake.go) -/

/-- `Handshake` (the two `[20]byte` arrays as byte lists). -/
structure Handshake where
  Pstr : List UInt8
  InfoHash : List UInt8
  PeerID : List UInt8

/-- `NewHandshake`. -/
def NewHandshake (infoHash peerID : List UInt8) : Handshake :=
  { Pstr := strBytes ("BitTorrent protocol"), InfoHash := infoHash, PeerID := peerID }

/-- `Handshake.Serialize`: a 68-byte buffer, `buf[0] = byte(len(h.Pstr))`,
then successive `copy`s of the pstr, 8 reserved zero bytes, the info-hash
and the peer id, with `curr` advanced by each `copy`'s return value. -/
def Handshake.Serialize (h : Handshake) : List UInt8 :=
  let buf0 := (List.replicate 68 (0 : UInt8)).set 0 (UInt8.ofNat h.Pstr.length)
  let buf1 := goCopy buf0 1 h.Pstr
  let c1 := 1 + goCopyCount buf0 1 h.Pstr
  let buf2 := goCopy buf1 c1 (List.replicate 8 (0 : UInt8))
  let c2 := c1 + goCopyCount buf1 c1 (List.replicate 8 (0 : UInt8))
  let buf3 := goCopy buf2 c2 h.InfoHash
  let c3 := c2 + goCopyCount buf2 c2 h.InfoHash
  goCopy buf3 c3 h.PeerID

/-! ## The `p2p` package: piece progress (p2p/message.go) -/

/-- `PieceProgress`. -/
structure PieceProgress where
  Index : Nat
  Buf : List UInt8
  Downloaded : Nat

/-- `NewPieceProgress`: a zeroed buffer of the given length, nothing
downloaded. -/
def NewPieceProgress (index length : Nat) : PieceProgress :=
  { Index := index, Buf := List.replicate length 0, Downloaded := 0 }

/-- `PieceProgress.AddBlock`: `copy(pp.Buf[begin:], block)` followed by
`pp.Downloaded += len(block)`. -/
def PieceProgress.AddBlock (pp : PieceProgress) (start : Nat) (block : List UInt8) :
    PieceProgress :=
  { pp with Buf := goCopy pp.Buf start block, Downloaded := pp.Downloaded + block.length }

/-- `PieceProgress.IsComplete`. -/
def PieceProgress.IsComplete (pp : PieceProgress) : Bool :=
  pp.Downloaded = pp.Buf.length

/-- A `PieceProgress` reached from `NewPieceProgress` by a sequence of
`AddBlock` calls (each element is the `(begin, block)` argument pair). -/
def applyBlocks (pp : PieceProgress) (blocks : List (Nat × List UInt8)) : PieceProgress :=
  blocks.foldl (fun s b => s.AddBlock b.1 b.2) pp

/-! ## `Bitfield` (torrent/torrent.go) -/

/-- `Bitfield`. -/
abbrev Bitfield := List UInt8

/-- `Bitfield.HasPiece` as Go parses it: `>>` and `%` share precedence
level 5 and associate left-to-right, so `bf[byteIndex] >> (7-offset) % 1`
is `(bf[byteIndex] >> (7-offset)) % 1`.  The `byteIndex < 0` guard of the
source cannot fire for a natural-number index and is dropped. -/
def Bitfield.HasPiece (bf : Bitfield) (index : Nat) : Bool :=
  let byteIndex := index / 8
  let offset := index % 8
  if bf.length ≤ byteIndex then false
  else ((bf.getD byteIndex 0 >>> (UInt8.ofNat (7 - offset))) % 1) ≠ 0

/-- Modelled from the spec: the spec's reading of the same expression,
"`(bf[byteIndex] >> (7 - offset) % 1) != 0` ... evaluates as `>> 0` due to
operator precedence", i.e. the shift amount is `(7 - offset) % 1 = 0`.
Kept side by side with `Bitfield.HasPiece` for comparison. -/
def Bitfield.HasPieceSpecReading (bf : Bitfield) (index : Nat) : Bool :=
  let byteIndex := index / 8
  let offset := index % 8
  if bf.length ≤ byteIndex then false
  else (bf.getD byteIndex 0 >>> (UInt8.ofNat ((7 - offset) % 1))) ≠ 0

/-! ## `main` (main.go) -/

/-- The path `main` passes to `torrent.Open`: the string literal
`"debian-13.3.0-amd64-netinst.iso.torrent"`, whatever the command-line
arguments (modelled as the argument vector after the program name) are.
`os.Args` is never consulted in main.go. -/
def mainTorrentPath (_args : List String) : String :=
  "debian-13.3.0-amd64-netinst.iso.torrent"


/-- The fixture of claim C1:
`d8:announce3:url4:infod4:name1:ae5:extra1:xe`. -/
def fixtureC1 : List UInt8 :=
  strBytes ("d8:announce3:url4:infod4:name1:ae5:extra1:xe")

/-- The invariant coupling the partially built top-level dictionary with
the decoder's `RawInfo` state: either no `info` binding has been seen and
`RawInfo` is still unset, or the current `RawInfo` is the verbatim slice
`data[pos, pos+n)` of the input, which parses (at depth 1) to exactly the
value currently bound to `info`, consuming exactly `n` bytes. -/
def InfoCapture (data : List UInt8) (m : List (List UInt8 × BVal))
    (raw : Option (List UInt8)) : Prop :=
  (mapLookup infoKey m = none ∧ raw = none) ∨
  (∃ pos n v, mapLookup infoKey m = some v ∧
    raw = some ((data.drop pos).take n) ∧ pos + n ≤ data.length ∧
    ∃ fuel raw₀ raw₁, parseValue fuel 1 raw₀ (data.drop pos) = .ok (v, n, raw₁))


/-! ## Supporting lemmas -/

theorem indexOfByte_lt_length {data : List UInt8} {b : UInt8} {i : Nat}
    (h : indexOfByte data b = some i) : i < data.length := by
  induction data generalizing i with
  | nil => simp [indexOfByte] at h
  | cons x xs ih =>
      simp only [indexOfByte] at h
      by_cases hx : x = b
      · simp [hx] at h
        simp only [List.length_cons]
        omega
      · simp [hx, Option.map_eq_some'] at h
        obtain ⟨j, hj, rfl⟩ := h
        have := ih hj
        simp only [List.length_cons]
        omega

theorem indexOfByte_append_of_some {data extra : List UInt8} {b : UInt8} {i : Nat}
    (h : indexOfByte data b = some i) :
    indexOfByte (data ++ extra) b = some i := by
  induction data generalizing i with
  | nil => simp [indexOfByte] at h
  | cons x xs ih =>
      simp only [indexOfByte] at h ⊢
      by_cases hx : x = b
      · simpa [hx] using h
      · simp only [hx, if_false, Option.map_eq_some'] at h ⊢
        obtain ⟨j, hj, rfl⟩ := h
        exact ⟨j, ih hj, rfl⟩

/-- The byte found by `indexOfByte` really is `b`, and no earlier byte is. -/
theorem indexOfByte_spec {data : List UInt8} {b : UInt8} {i : Nat}
    (h : indexOfByte data b = some i) :
    data.get? i = some b ∧ ∀ j < i, data.get? j ≠ some b := by
  induction data generalizing i with
  | nil => simp [indexOfByte] at h
  | cons x xs ih =>
      simp only [indexOfByte] at h
      by_cases hx : x = b
      · simp [hx] at h
        subst h
        simp [hx]
      · simp only [hx, if_false, Option.map_eq_some'] at h
        obtain ⟨j, hj, rfl⟩ := h
        obtain ⟨h1, h2⟩ := ih hj
        refine ⟨by simpa using h1, ?_⟩
        intro k hk
        cases k with
        | zero => simpa using hx
        | succ k =>
            simp only [List.get?_cons_succ]
            exact h2 k (by omega)


theorem uint8_mod_one (x : UInt8) : x % 1 = 0 := by
  have h : (x % 1).toNat = x.toNat % (1 : UInt8).toNat := rfl
  have h2 : x.toNat % 1 = 0 := Nat.mod_one _
  exact UInt8.ext (by rw [h]; exact h2)

theorem goCopy_length (dest : List α) (start : Nat) (src : List α) :
    (goCopy dest start src).length = dest.length := by
  simp only [goCopy, List.length_append, List.length_take, List.length_drop]
  omega

/-- `goCopy` on a buffer split exactly at the write position, when the
source fits in the right part. -/
theorem goCopy_split (d1 d2 src : List α) (start : Nat) (hs : start = d1.length)
    (h : src.length ≤ d2.length) :
    goCopy (d1 ++ d2) start src = d1 ++ src ++ d2.drop src.length := by
  subst hs
  simp only [goCopy, List.length_append]
  rw [List.take_left, show d1.length + d2.length - d1.length = d2.length by omega,
    List.take_of_length_le h, List.drop_append]


/-! ## Lemmas and claim theorems: worker pipeline (C4) -/

theorem refillAux_stops (fuel : Nat) : ∀ pl r d : Int, (pl - r).toNat ≤ fuel →
    ¬(refillAux fuel pl r d < pl ∧
      refillAux fuel pl r d - d < maxBacklog * blockSize) := by
  induction fuel with
  | zero =>
      intro pl r d h
      simp only [refillAux]
      omega
  | succ fuel ih =>
      intro pl r d h
      rw [refillAux]
      split
      · rename_i hg
        apply ih
        simp only [maxBacklog, blockSize] at *
        split <;> omega
      · rename_i hg
        exact hg

/-- The fuelled refill loop exits exactly where Go's does: with the loop
guard false. -/
theorem refill_stops (pieceLength requested downloaded : Int) :
    ¬(refill pieceLength requested downloaded < pieceLength ∧
      refill pieceLength requested downloaded - downloaded < maxBacklog * blockSize) :=
  refillAux_stops _ pieceLength requested downloaded le_rfl

theorem refillAux_le (fuel : Nat) : ∀ pl r d : Int,
    r - d ≤ maxBacklog * blockSize + (blockSize - 1) →
    refillAux fuel pl r d - d ≤ maxBacklog * blockSize + (blockSize - 1) := by
  induction fuel with
  | zero => intro pl r d h; simpa [refillAux] using h
  | succ fuel ih =>
      intro pl r d h
      rw [refillAux]
      split
      · rename_i hg
        apply ih
        simp only [maxBacklog, blockSize] at *
        split <;> omega
      · exact h

theorem attemptTrace_bound (msgs : List PeerMsg) : ∀ (pl : Int) (s0 : AttemptState),
    s0.requested - s0.downloaded ≤ maxBacklog * blockSize + (blockSize - 1) →
    ∀ s ∈ attemptTrace pl msgs s0,
      s.requested - s.downloaded ≤ maxBacklog * blockSize + (blockSize - 1) := by
  induction msgs with
  | nil => intro pl s0 h s hs; simp [attemptTrace] at hs
  | cons m ms ih =>
      intro pl s0 h s hs
      rw [attemptTrace] at hs
      split at hs
      · have h1 : ({ s0 with requested := refill pl s0.requested s0.downloaded } :
            AttemptState).requested -
            ({ s0 with requested := refill pl s0.requested s0.downloaded } :
            AttemptState).downloaded ≤ maxBacklog * blockSize + (blockSize - 1) := by
          exact refillAux_le _ pl s0.requested s0.downloaded h
        have h2 : ∀ s1 : AttemptState,
            s1.requested - s1.downloaded ≤ maxBacklog * blockSize + (blockSize - 1) →
            (attemptStep s1 m).requested - (attemptStep s1 m).downloaded ≤
              maxBacklog * blockSize + (blockSize - 1) := by
          intro s1 hb
          match m with
          | none => exact hb
          | some (b, block) =>
              simp only [attemptStep]
              have : (0 : Int) ≤ (block.length : Int) := Int.ofNat_nonneg _
              omega
        simp only [List.mem_cons] at hs
        rcases hs with rfl | hs
        · exact h1
        rcases hs with rfl | hs
        · exact h2 _ h1
        · exact ih pl _ (h2 _ h1) s hs
      · simp at hs

/-! ## Lemmas for the download coordinator (C2) -/

theorem downloadLoop_writes (sha1 : List UInt8 → List UInt8) (pieces : List Piece)
    (pl : Int) : ∀ (results : List PieceResult) (s : DLState) (w : Int × List UInt8),
    w ∈ (downloadLoop sha1 pieces pl results s).fileWrites →
    w ∈ s.fileWrites ∨ ∃ r, r ∈ results ∧
      sha1 r.Buf = (pieces.getD r.Index ⟨0, [], 0⟩).Hash ∧
      w = ((r.Index : Int) * pl, r.Buf) := by
  intro results
  induction results with
  | nil => intro s w hw; exact Or.inl hw
  | cons r rs ih =>
      intro s w hw
      rw [downloadLoop] at hw
      split at hw
      · rcases ih _ w hw with hmem | ⟨r', hr', hhash, hweq⟩
        · rw [downloadStep] at hmem
          split at hmem
          · exact Or.inl hmem
          · rename_i hhash
            simp only [List.mem_append, List.mem_singleton] at hmem
            rcases hmem with hmem | rfl
            · exact Or.inl hmem
            · exact Or.inr ⟨r, List.mem_cons_self r rs, not_not.mp (by simpa using hhash),
                rfl⟩
        · exact Or.inr ⟨r', List.mem_cons_of_mem r hr', hhash, hweq⟩
      · exact Or.inl hw



/-! ## Claim theorems -/

/-- C4 (counterexample): with blocks of arbitrary size, the pipeline debt
`requested - downloaded` exceeds `MAX_BACKLOG * BLOCK_SIZE`: for a piece
of length 327680, after ten full requests, a 1-byte block and one more
refill, the trace reaches `requested = 180224, downloaded = 1`, and
`180223 > 163840`. -/
theorem C4_pipeline_bound_cex :
    ((attemptTrace 327680 [some (0, [0]), none] (attemptInit 327680)).map
        (fun s => (s.requested, s.downloaded))).get? 2 = some (180224, 1) ∧
    ¬((180224 : Int) - 1 ≤ maxBacklog * blockSize) :=
  ⟨rfl, by decide⟩

/-- C4 (amended): in `attemptDownloadPiece`, for every piece length and
every sequence of delivered blocks (of any sizes), at every recorded point
of the loop the outstanding request debt `requested - downloaded` never
exceeds `MAX_BACKLOG * BLOCK_SIZE + (BLOCK_SIZE - 1) = 180223` (the
original `MAX_BACKLOG * BLOCK_SIZE` bound only holds before each send, and
a send of up to `BLOCK_SIZE` follows it). -/
theorem C4_pipeline_bound_amended (pl : Int) (msgs : List PeerMsg) :
    ∀ s ∈ attemptTrace pl msgs (attemptInit pl),
      s.requested - s.downloaded ≤ maxBacklog * blockSize + (blockSize - 1) := by
  apply attemptTrace_bound
  simp only [attemptInit, maxBacklog, blockSize]
  omega

/-- C4 (witness): the amended bound applied to a concrete two-element
trace. -/
theorem C4_pipeline_bound_witness :
    (⟨[0, 0], 2, 0⟩ : AttemptState).requested -
      (⟨[0, 0], 2, 0⟩ : AttemptState).downloaded ≤
      maxBacklog * blockSize + (blockSize - 1) :=
  C4_pipeline_bound_amended 2 [none] ⟨[0, 0], 2, 0⟩
    (by rw [show attemptTrace 2 [none] (attemptInit 2) =
        [⟨[0, 0], 2, 0⟩, ⟨[0, 0], 2, 0⟩] from rfl]
        exact List.mem_cons_self _ _)

/-- C2 (confirmed): in `Download`'s result loop, a received `PieceResult`
whose `SHA1(buf)` disagrees with the expected piece hash leaves the file
and `doneCount` untouched and re-enqueues a fresh `PieceWork` for that
index; on agreement the buffer is written at offset `index * piece_length`
and `doneCount` is incremented; and over any sequence of received results
every write that ever reaches the file carries a buffer whose hash matches
the expected hash of its piece. -/
theorem C2_hash_check_gate (sha1 : List UInt8 → List UInt8) (pieces : List Piece)
    (pl : Int) (s : DLState) (res : PieceResult) (_hres : res.Index < pieces.length) :
    (sha1 res.Buf ≠ (pieces.getD res.Index ⟨0, [], 0⟩).Hash →
      (downloadStep sha1 pieces pl s res).fileWrites = s.fileWrites ∧
      (downloadStep sha1 pieces pl s res).doneCount = s.doneCount ∧
      (downloadStep sha1 pieces pl s res).workQueue = s.workQueue ++
        [⟨res.Index, (pieces.getD res.Index ⟨0, [], 0⟩).Hash,
          (pieces.getD res.Index ⟨0, [], 0⟩).Length⟩]) ∧
    (sha1 res.Buf = (pieces.getD res.Index ⟨0, [], 0⟩).Hash →
      (downloadStep sha1 pieces pl s res).fileWrites =
        s.fileWrites ++ [((res.Index : Int) * pl, res.Buf)] ∧
      (downloadStep sha1 pieces pl s res).doneCount = s.doneCount + 1 ∧
      (downloadStep sha1 pieces pl s res).workQueue = s.workQueue) ∧
    (∀ (results : List PieceResult) (w : Int × List UInt8),
      w ∈ (downloadLoop sha1 pieces pl results s).fileWrites →
      w ∈ s.fileWrites ∨ ∃ r, r ∈ results ∧
        sha1 r.Buf = (pieces.getD r.Index ⟨0, [], 0⟩).Hash ∧
        w = ((r.Index : Int) * pl, r.Buf)) := by
  refine ⟨?_, ?_, fun results w hw => downloadLoop_writes sha1 pieces pl results s w hw⟩
  · intro hne
    simp only [downloadStep]
    rw [if_pos hne]
    exact ⟨rfl, rfl, rfl⟩
  · intro heq
    simp only [downloadStep]
    rw [if_neg (by simp [heq])]
    exact ⟨rfl, rfl, rfl⟩

/-- C2 (witness): the mismatch branch at a concrete state. -/
theorem C2_hash_check_gate_witness :
    (downloadStep (fun _ => [1]) [⟨0, [2], 5⟩] 5 ⟨[], [], 0⟩ ⟨0, []⟩).fileWrites = [] ∧
    (downloadStep (fun _ => [1]) [⟨0, [2], 5⟩] 5 ⟨[], [], 0⟩ ⟨0, []⟩).doneCount = 0 ∧
    (downloadStep (fun _ => [1]) [⟨0, [2], 5⟩] 5 ⟨[], [], 0⟩ ⟨0, []⟩).workQueue =
      [] ++ [⟨0, [2], 5⟩] := by
  have h := (C2_hash_check_gate (fun _ => [1]) [⟨0, [2], 5⟩] 5 ⟨[], [], 0⟩ ⟨0, []⟩
    (by decide)).1 (by decide)
  exact h

/-- C3 (confirmed): `CreatePieceList` produces `len(pieces)/20` pieces;
piece `i` carries index `i` and hash bytes `[20i, 20(i+1))` of the
`pieces` blob; every piece before the last has length `piece_length`, and
the last has length `T mod P` when that (truncated) remainder is positive
and `P` otherwise, where `T` is `Info.Length` when positive and the sum of
the file lengths otherwise. -/
theorem C3_createPieceList_shape (t : Torrent) (_hP : 0 < t.Info.PieceLength) :
    t.totalLength = (if 0 < t.Info.Length then t.Info.Length
      else (t.Info.Files.map GoFile.Length).sum) ∧
    (t.CreatePieceList).length = t.Info.Pieces.length / 20 ∧
    ∀ i, i < t.Info.Pieces.length / 20 →
      ((t.CreatePieceList).getD i ⟨0, [], 0⟩).Index = i ∧
      ((t.CreatePieceList).getD i ⟨0, [], 0⟩).Hash =
        (t.Info.Pieces.drop (20 * i)).take 20 ∧
      ((t.CreatePieceList).getD i ⟨0, [], 0⟩).Length =
        (if i = t.Info.Pieces.length / 20 - 1 then
          (if 0 < Int.tmod t.totalLength t.Info.PieceLength then
            Int.tmod t.totalLength t.Info.PieceLength
          else t.Info.PieceLength)
        else t.Info.PieceLength) := by
  refine ⟨rfl, by simp [Torrent.CreatePieceList], ?_⟩
  intro i hi
  have hget : (t.CreatePieceList).getD i ⟨0, [], 0⟩ =
      { Index := i,
        Hash := (t.Info.Pieces.drop (i * 20)).take 20,
        Length :=
          (if i = t.Info.Pieces.length / 20 - 1 then
            (if 0 < Int.tmod t.totalLength t.Info.PieceLength then
              Int.tmod t.totalLength t.Info.PieceLength
            else t.Info.PieceLength)
          else t.Info.PieceLength) } := by
    simp [Torrent.CreatePieceList, List.getD, List.getElem?_map, List.getElem?_range, hi]
  rw [hget]
  exact ⟨rfl, by rw [Nat.mul_comm], rfl⟩

/-- C3 (witness): a two-piece torrent with total length 5 and piece
length 3; the last piece gets length `5 mod 3 = 2`. -/
theorem C3_createPieceList_shape_witness :
    (((Torrent.mk [] ⟨3, List.replicate 40 7, [], 5, []⟩).CreatePieceList).getD 1
      ⟨0, [], 0⟩).Length = 2 := by
  have h := (C3_createPieceList_shape (Torrent.mk [] ⟨3, List.replicate 40 7, [], 5, []⟩)
    (by decide)).2.2 1 (by decide)
  rw [h.2.2]
  decide

/-- C6 (confirmed): `Serialize` of `NewHandshake(h, p)` is the 68-byte
message `19 ∥ "BitTorrent protocol" ∥ 8 zero bytes ∥ h ∥ p`: byte 0 is 19,
bytes [1,20) the protocol string, bytes [20,28) zero, bytes [28,48) the
info-hash and bytes [48,68) the peer id. -/
theorem C6_handshake_serialize (ih p : List UInt8) (hh : ih.length = 20)
    (hp : p.length = 20) :
    (NewHandshake ih p).Serialize =
      19 :: (strBytes ("BitTorrent protocol") ++ List.replicate 8 0 ++ ih ++ p) ∧
    ((NewHandshake ih p).Serialize).length = 68 ∧
    ((NewHandshake ih p).Serialize).take 1 = [19] ∧
    (((NewHandshake ih p).Serialize).drop 1).take 19 = strBytes ("BitTorrent protocol") ∧
    (((NewHandshake ih p).Serialize).drop 20).take 8 = List.replicate 8 0 ∧
    (((NewHandshake ih p).Serialize).drop 28).take 20 = ih ∧
    (((NewHandshake ih p).Serialize).drop 48).take 20 = p := by
  have hser : (NewHandshake ih p).Serialize =
      goCopy (goCopy ((19 :: (strBytes ("BitTorrent protocol") ++ List.replicate 8 0))
          ++ List.replicate 40 0) 28 ih)
        (28 + goCopyCount ((19 :: (strBytes ("BitTorrent protocol") ++ List.replicate 8 0))
          ++ List.replicate 40 0) 28 ih) p := rfl
  have hcount : goCopyCount ((19 :: (strBytes ("BitTorrent protocol") ++ List.replicate 8 0))
      ++ List.replicate 40 0) 28 ih = 20 := by
    simp [goCopyCount, hh]
  have hbuf3 : goCopy ((19 :: (strBytes ("BitTorrent protocol") ++ List.replicate 8 0))
      ++ List.replicate 40 0) 28 ih =
      (19 :: (strBytes ("BitTorrent protocol") ++ List.replicate 8 0)) ++ ih
        ++ List.replicate 20 0 := by
    rw [goCopy_split (19 :: (strBytes ("BitTorrent protocol") ++ List.replicate 8 0))
      (List.replicate 40 0) ih 28 (by decide) (by rw [hh]; simp), hh, List.drop_replicate]
  rw [hser, hcount, hbuf3]
  have hlen48 : ((19 :: (strBytes ("BitTorrent protocol") ++ List.replicate 8 0)) ++ ih).length
      = 48 := by
    simp [hh, strBytes]
  have hfinal : goCopy ((19 :: (strBytes ("BitTorrent protocol") ++ List.replicate 8 0)) ++ ih
      ++ List.replicate 20 0) 48 p =
      ((19 :: (strBytes ("BitTorrent protocol") ++ List.replicate 8 0)) ++ ih) ++ p
        ++ List.replicate 0 0 := by
    rw [goCopy_split ((19 :: (strBytes ("BitTorrent protocol") ++ List.replicate 8 0)) ++ ih)
      (List.replicate 20 0) p 48 hlen48.symm (by rw [hp]; simp), hp, List.drop_replicate]
  rw [hfinal]
  refine ⟨by simp, by simp [hh, hp, strBytes], ?_, ?_, ?_, ?_, ?_⟩ <;>
    simp [List.drop_append_eq_append_drop, List.take_append_eq_append_take, hh, hp, strBytes,
      List.take_replicate, List.drop_replicate]

/-- C6 (witness): the serialization at concrete 20-byte arrays. -/
theorem C6_handshake_serialize_witness :
    (NewHandshake (List.replicate 20 1) (List.replicate 20 2)).Serialize =
      19 :: (strBytes ("BitTorrent protocol") ++ List.replicate 8 0 ++
        List.replicate 20 1 ++ List.replicate 20 2) :=
  (C6_handshake_serialize (List.replicate 20 1) (List.replicate 20 2)
    (by simp) (by simp)).1

/-- C7 (counterexample): on the bitfield `[0x80]` at index 0 the spec's
reading (`>> 0`, i.e. test the whole byte, whose top bit is set) yields
`true`, but the code yields `false`: the claimed description of
`HasPiece`'s behaviour is wrong. -/
theorem C7_hasPiece_cex :
    Bitfield.HasPieceSpecReading [128] 0 = true ∧
    Bitfield.HasPiece [128] 0 = false :=
  ⟨rfl, rfl⟩

/-- C7 (amended): in Go, `>>` and `%` share precedence and associate
left-to-right, so the expression parses as
`((bf[byteIndex] >> (7-offset)) % 1) != 0`; since `x % 1 = 0` for every
byte, `HasPiece` returns `false` for every bitfield and every index. -/
theorem C7_hasPiece_always_false (bf : Bitfield) (index : Nat) :
    Bitfield.HasPiece bf index = false := by
  simp [Bitfield.HasPiece, uint8_mod_one]

/-- C8 (counterexample): `AddBlock` counts the full block length even when
the block overflows the buffer, so from `NewPieceProgress(0, 2)` a single
`AddBlock(0, 3 bytes)` reaches `downloaded = 3 > 2 = len(buf)`. -/
theorem C8_progress_cex :
    ((NewPieceProgress 0 2).AddBlock 0 [0, 0, 0]).Downloaded = 3 ∧
    (((NewPieceProgress 0 2).AddBlock 0 [0, 0, 0]).Buf).length = 2 ∧
    ¬(((NewPieceProgress 0 2).AddBlock 0 [0, 0, 0]).Downloaded ≤
        (((NewPieceProgress 0 2).AddBlock 0 [0, 0, 0]).Buf).length) :=
  ⟨rfl, rfl, by decide⟩

/-- C8 (amended): after any sequence of `AddBlock` calls from
`NewPieceProgress`, `downloaded` is the total length of all blocks passed
(so `downloaded ≤ len(buf)` holds exactly when that total does not exceed
the buffer length, and can be violated otherwise), the buffer length never
changes, and `IsComplete` is true exactly when
`downloaded = len(buf)`. -/
theorem C8_progress_invariant_amended (index length : Nat)
    (blocks : List (Nat × List UInt8)) :
    ((applyBlocks (NewPieceProgress index length) blocks).Buf).length = length ∧
    (applyBlocks (NewPieceProgress index length) blocks).Downloaded =
      (blocks.map (fun b => b.2.length)).sum ∧
    ((applyBlocks (NewPieceProgress index length) blocks).IsComplete = true ↔
      (applyBlocks (NewPieceProgress index length) blocks).Downloaded =
        ((applyBlocks (NewPieceProgress index length) blocks).Buf).length) ∧
    ((blocks.map (fun b => b.2.length)).sum ≤ length →
      (applyBlocks (NewPieceProgress index length) blocks).Downloaded ≤
        ((applyBlocks (NewPieceProgress index length) blocks).Buf).length) := by
  have key : ∀ (blocks : List (Nat × List UInt8)) (pp : PieceProgress),
      ((applyBlocks pp blocks).Buf).length = pp.Buf.length ∧
      (applyBlocks pp blocks).Downloaded =
        pp.Downloaded + (blocks.map (fun b => b.2.length)).sum := by
    intro blocks
    induction blocks with
    | nil => intro pp; simp [applyBlocks]
    | cons b bs ih =>
        intro pp
        obtain ⟨h1, h2⟩ := ih (pp.AddBlock b.1 b.2)
        refine ⟨?_, ?_⟩
        · rw [show applyBlocks pp (b :: bs) = applyBlocks (pp.AddBlock b.1 b.2) bs from rfl,
            h1]
          simp [PieceProgress.AddBlock, goCopy_length]
        · rw [show applyBlocks pp (b :: bs) = applyBlocks (pp.AddBlock b.1 b.2) bs from rfl,
            h2]
          simp [PieceProgress.AddBlock]
          ring
  obtain ⟨h1, h2⟩ := key blocks (NewPieceProgress index length)
  have hbl : ((applyBlocks (NewPieceProgress index length) blocks).Buf).length = length := by
    simpa [NewPieceProgress] using h1
  have hdl : (applyBlocks (NewPieceProgress index length) blocks).Downloaded =
      (blocks.map (fun b => b.2.length)).sum := by
    simpa [NewPieceProgress] using h2
  refine ⟨hbl, hdl, ?_, ?_⟩
  · simp [PieceProgress.IsComplete]
  · intro hle
    rw [hbl, hdl]
    exact hle

/-- C8 (witness): two in-bounds blocks filling a 4-byte buffer. -/
theorem C8_progress_invariant_witness :
    (applyBlocks (NewPieceProgress 0 4) [(0, [1, 2]), (2, [3, 4])]).Downloaded ≤
      ((applyBlocks (NewPieceProgress 0 4) [(0, [1, 2]), (2, [3, 4])]).Buf).length :=
  (C8_progress_invariant_amended 0 4 [(0, [1, 2]), (2, [3, 4])]).2.2.2 (by decide)

/-- C9 (code bug): `main` ignores the command line entirely and always
opens the hard-coded literal `"debian-13.3.0-amd64-netinst.iso.torrent"`,
so on the invocation `./bittorrent other.torrent` the opened path is not
the supplied positional argument. -/
theorem C9_main_ignores_args :
    mainTorrentPath [("other.torrent" : String)] =
      "debian-13.3.0-amd64-netinst.iso.torrent" ∧
    mainTorrentPath [("other.torrent" : String)] ≠ ("other.torrent" : String) :=
  ⟨rfl, by decide⟩

/-! ## Lemmas for the integer parser (C5) -/

theorem goParseInt_bounds {s : List UInt8} {n : Int} (h : goParseInt s = some n) :
    -(2 ^ 63) ≤ n ∧ n ≤ 2 ^ 63 - 1 := by
  unfold goParseInt at h
  rcases s with _ | ⟨c, rest⟩
  · exact absurd h (by simp)
  · dsimp only at h
    repeat' split at h
    all_goals first
      | (rw [Option.some_inj] at h; omega)
      | (exact absurd h (by simp))

theorem parseInteger_bounds {data : List UInt8} {n : Int} {c : Nat}
    (h : parseInteger data = .ok (n, c)) : -(2 ^ 63) ≤ n ∧ n ≤ 2 ^ 63 - 1 := by
  unfold parseInteger at h
  dsimp only at h
  repeat' split at h
  all_goals first
    | (rw [Except.ok.injEq, Prod.mk.injEq] at h; obtain ⟨rfl, rfl⟩ := h;
       exact goParseInt_bounds (by assumption))
    | (exact absurd h (by simp))

theorem parseInteger_emptyBody (rest : List UInt8) :
    parseInteger (105 :: 101 :: rest) = .error .invalidInteger := by
  cases rest with
  | nil => rfl
  | cons x xs =>
      unfold parseInteger
      rw [if_neg (by simp)]
      rw [show indexOfByte (105 :: 101 :: x :: xs) 101 = some 1 by simp [indexOfByte]]
      rfl

theorem parseInteger_minusAlone (rest : List UInt8) :
    parseInteger (105 :: 45 :: 101 :: rest) = .error .invalidInteger := by
  unfold parseInteger
  rw [if_neg (by simp)]
  rw [show indexOfByte (105 :: 45 :: 101 :: rest) 101 = some 2 by simp [indexOfByte]]
  rfl

theorem parseInteger_minusZero (rest : List UInt8) :
    parseInteger (105 :: 45 :: 48 :: 101 :: rest) = .error .negativeZero := by
  unfold parseInteger
  rw [if_neg (by simp)]
  rw [show indexOfByte (105 :: 45 :: 48 :: 101 :: rest) 101 = some 3 by
    simp [indexOfByte]]
  rfl

theorem parseInteger_leadZero (c : UInt8) (rest : List UInt8) (hc : c ≠ 101) :
    ∃ e, parseInteger (105 :: 48 :: c :: rest) = .error e := by
  unfold parseInteger
  rw [if_neg (by simp)]
  cases hidx : indexOfByte (105 :: 48 :: c :: rest) 101 with
  | none => exact ⟨_, rfl⟩
  | some endIdx =>
      obtain ⟨hat, hmin⟩ := indexOfByte_spec hidx
      have h3 : 3 ≤ endIdx := by
        by_contra hlt
        interval_cases endIdx
        · rw [show ((105 : UInt8) :: 48 :: c :: rest).get? 0 = some 105 from rfl] at hat
          simp at hat
        · rw [show ((105 : UInt8) :: 48 :: c :: rest).get? 1 = some 48 from rfl] at hat
          simp at hat
        · rw [show ((105 : UInt8) :: 48 :: c :: rest).get? 2 = some c from rfl] at hat
          exact hc (by simpa using hat)
      obtain ⟨k, rfl⟩ : ∃ k, endIdx = k + 3 := ⟨endIdx - 3, by omega⟩
      have hbody : (List.take (k + 3 - 1) (List.drop 1 (105 :: 48 :: c :: rest))) =
          48 :: c :: List.take k rest := by
        rw [show k + 3 - 1 = k + 2 by omega]
        rfl
      dsimp only
      rw [hbody]
      dsimp only
      rw [if_pos (by simp)]
      exact ⟨_, rfl⟩

/-- C5 (confirmed): `parseInteger` accepts `i0e` as 0 and `i-42e` as -42
(consuming 3 resp. 5 bytes); it rejects, whatever bytes follow the
terminator, every integer whose body is empty, is `-` alone or is `-0`,
and every body with a superfluous leading zero (`i00e` and `i03e`
included); and every accepted value lies in the signed 64-bit range. -/
theorem C5_parseInteger_spec :
    parseInteger (strBytes ("i0e")) = .ok (0, 3) ∧
    parseInteger (strBytes ("i-42e")) = .ok (-42, 5) ∧
    parseInteger (strBytes ("i00e")) = .error .leadingZero ∧
    parseInteger (strBytes ("i03e")) = .error .leadingZero ∧
    (∀ rest : List UInt8, parseInteger (105 :: 101 :: rest) = .error .invalidInteger) ∧
    (∀ rest : List UInt8,
      parseInteger (105 :: 45 :: 101 :: rest) = .error .invalidInteger) ∧
    (∀ rest : List UInt8,
      parseInteger (105 :: 45 :: 48 :: 101 :: rest) = .error .negativeZero) ∧
    (∀ (c : UInt8) (rest : List UInt8), c ≠ 101 →
      ∃ e, parseInteger (105 :: 48 :: c :: rest) = .error e) ∧
    (∀ (data : List UInt8) (n : Int) (c : Nat), parseInteger data = .ok (n, c) →
      -(2 ^ 63) ≤ n ∧ n ≤ 2 ^ 63 - 1) :=
  ⟨rfl, rfl, rfl, rfl, parseInteger_emptyBody, parseInteger_minusAlone,
    parseInteger_minusZero, parseInteger_leadZero,
    fun _ _ _ h => parseInteger_bounds h⟩

/-- C5 (witness): the rejection clauses applied at `i00e` (`c = '0'`,
empty tail) and the bound clause at the accepted `i-42e`. -/
theorem C5_parseInteger_spec_witness :
    (∃ e, parseInteger (105 :: 48 :: 48 :: [101]) = .error e) ∧
    (-(2 ^ 63) ≤ (-42 : Int) ∧ (-42 : Int) ≤ 2 ^ 63 - 1) :=
  ⟨C5_parseInteger_spec.2.2.2.2.2.2.2.1 48 [101] (by decide),
    C5_parseInteger_spec.2.2.2.2.2.2.2.2 (strBytes ("i-42e")) (-42) 5
      C5_parseInteger_spec.2.1⟩


theorem parseInteger_le {data : List UInt8} {n : Int} {c : Nat}
    (h : parseInteger data = .ok (n, c)) : c ≤ data.length := by
  unfold parseInteger at h
  dsimp only at h
  repeat' split at h
  all_goals first
    | (rw [Except.ok.injEq, Prod.mk.injEq] at h
       obtain ⟨-, rfl⟩ := h
       have := indexOfByte_lt_length (by assumption)
       omega)
    | (exact absurd h (by simp))

theorem parseInteger_append {data extra : List UInt8} {n : Int} {c : Nat}
    (h : parseInteger data = .ok (n, c)) :
    parseInteger (data ++ extra) = .ok (n, c) := by
  have h3 : ¬ data.length < 3 := by
    intro hlt
    unfold parseInteger at h
    rw [if_pos hlt] at h
    exact absurd h (by simp)
  obtain ⟨endIdx, hidx⟩ : ∃ i, indexOfByte data 101 = some i := by
    cases hidx : indexOfByte data 101 with
    | none =>
        unfold parseInteger at h
        rw [if_neg h3, hidx] at h
        exact absurd h (by simp)
    | some i => exact ⟨i, rfl⟩
  have hlt := indexOfByte_lt_length hidx
  have hbody : ((data ++ extra).drop 1).take (endIdx - 1) =
      (data.drop 1).take (endIdx - 1) := by
    rw [List.drop_append_of_le_length (by omega),
      List.take_append_of_le_length (by simp only [List.length_drop]; omega)]
  unfold parseInteger at h ⊢
  rw [if_neg h3, hidx] at h
  rw [if_neg (by simp only [List.length_append]; omega),
    indexOfByte_append_of_some hidx]
  dsimp only at h ⊢
  rw [hbody]
  exact h



theorem parseString_le {data s : List UInt8} {c : Nat}
    (h : parseString data = .ok (s, c)) : c ≤ data.length := by
  unfold parseString at h
  dsimp only at h
  repeat' split at h
  all_goals first
    | (rw [Except.ok.injEq, Prod.mk.injEq] at h
       obtain ⟨-, rfl⟩ := h
       omega)
    | (exact absurd h (by simp))

theorem parseString_append {data extra s : List UInt8} {c : Nat}
    (h : parseString data = .ok (s, c)) :
    parseString (data ++ extra) = .ok (s, c) := by
  obtain ⟨colonIdx, hidx⟩ : ∃ i, indexOfByte data 58 = some i := by
    cases hidx : indexOfByte data 58 with
    | none =>
        unfold parseString at h
        rw [hidx] at h
        exact absurd h (by simp)
    | some i => exact ⟨i, rfl⟩
  have hclt := indexOfByte_lt_length hidx
  unfold parseString at h ⊢
  rw [hidx] at h
  rw [indexOfByte_append_of_some hidx]
  dsimp only at h ⊢
  split at h
  · exact absurd h (by simp)
  rename_i hc0
  rw [if_neg hc0]
  have hlenBuf : (data ++ extra).take colonIdx = data.take colonIdx :=
    List.take_append_of_le_length (le_of_lt hclt)
  rw [hlenBuf]
  split at h
  · exact absurd h (by simp)
  rename_i hlz
  rw [if_neg hlz]
  cases hgp : goParseInt (data.take colonIdx) with
  | none =>
      rw [hgp] at h
      exact absurd h (by simp)
  | some len =>
      rw [hgp] at h
      dsimp only at h ⊢
      split at h
      · exact absurd h (by simp)
      rename_i hneg
      rw [if_neg hneg]
      split at h
      · exact absurd h (by simp)
      rename_i hlong
      rw [if_neg hlong]
      split at h
      · exact absurd h (by simp)
      rename_i hshort
      rw [if_neg (by simp only [List.length_append]; omega)]
      rw [Except.ok.injEq, Prod.mk.injEq] at h ⊢
      obtain ⟨h1, h2⟩ := h
      refine ⟨?_, h2⟩
      rw [List.drop_append_of_le_length (by omega),
        List.take_append_of_le_length (by simp only [List.length_drop]; omega)]
      exact h1



theorem get?_some_lt {α : Type} {l : List α} {n : Nat} {b : α}
    (h : l.get? n = some b) : n < l.length := by
  rw [List.get?_eq_getElem?] at h
  exact (List.getElem?_eq_some_iff.mp h).1

theorem get?_append_l {α : Type} {l₁ l₂ : List α} {n : Nat} (h : n < l₁.length) :
    (l₁ ++ l₂).get? n = l₁.get? n := by
  rw [List.get?_eq_getElem?, List.get?_eq_getElem?, List.getElem?_append_left h]



theorem parseValue_zero (depth : Nat) (raw : Option (List UInt8)) (data : List UInt8) :
    parseValue 0 depth raw data = .error .outOfFuel := rfl

theorem parseList_zero (depth : Nat) (raw : Option (List UInt8)) (data : List UInt8) :
    parseList 0 depth raw data = .error .outOfFuel := rfl

theorem parseDict_zero (depth : Nat) (raw : Option (List UInt8)) (data : List UInt8) :
    parseDict 0 depth raw data = .error .outOfFuel := rfl

theorem parseListLoop_zero (depth : Nat) (raw : Option (List UInt8)) (data : List UInt8)
    (pos : Nat) (acc : List BVal) :
    parseListLoop 0 depth raw data pos acc = .error .outOfFuel := rfl

theorem parseDictLoop_zero (depth : Nat) (raw : Option (List UInt8)) (data : List UInt8)
    (pos : Nat) (acc : List (List UInt8 × BVal)) :
    parseDictLoop 0 depth raw data pos acc = .error .outOfFuel := rfl

theorem parseValue_nil (fuel depth : Nat) (raw : Option (List UInt8)) :
    parseValue (fuel + 1) depth raw [] = .error .emptyData := rfl

theorem parseValue_cons (fuel depth : Nat) (raw : Option (List UInt8)) (b : UInt8)
    (tail : List UInt8) :
    parseValue (fuel + 1) depth raw (b :: tail) =
      (if b = 105 then
        (parseInteger (b :: tail)).map (fun p => (.int p.1, p.2, raw))
      else if isDigit b then
        (parseString (b :: tail)).map (fun p => (.str p.1, p.2, raw))
      else if b = 108 then parseList fuel depth raw (b :: tail)
      else if b = 100 then parseDict fuel depth raw (b :: tail)
      else .error (.unknownType b)) := rfl

theorem parseList_succ (fuel depth : Nat) (raw : Option (List UInt8)) (data : List UInt8) :
    parseList (fuel + 1) depth raw data =
      (if MaxDepth < depth + 1 then .error .tooDeep
      else if data.length < 2 ∨ data.head? ≠ some 108 then .error .invalidList
      else parseListLoop fuel (depth + 1) raw data 1 []) := rfl

theorem parseDict_succ (fuel depth : Nat) (raw : Option (List UInt8)) (data : List UInt8) :
    parseDict (fuel + 1) depth raw data =
      (if MaxDepth < depth + 1 then .error .tooDeep
      else if data.length < 2 ∨ data.head? ≠ some 100 then .error .invalidDict
      else parseDictLoop fuel (depth + 1) raw data 1 []) := rfl

theorem parseListLoop_succ (fuel depth : Nat) (raw : Option (List UInt8))
    (data : List UInt8) (pos : Nat) (acc : List BVal) :
    parseListLoop (fuel + 1) depth raw data pos acc =
      (match data.get? pos with
      | none => .error .invalidList
      | some b =>
          if b = 101 then .ok (.list acc, pos + 1, raw)
          else
            match parseValue fuel depth raw (data.drop pos) with
            | .error e => .error e
            | .ok (v, consumed, raw') =>
                parseListLoop fuel depth raw' data (pos + consumed) (acc ++ [v])) := rfl

theorem parseDictLoop_succ (fuel depth : Nat) (raw : Option (List UInt8))
    (data : List UInt8) (pos : Nat) (acc : List (List UInt8 × BVal)) :
    parseDictLoop (fuel + 1) depth raw data pos acc =
      (match data.get? pos with
      | none => .error .invalidDict
      | some b =>
          if b = 101 then .ok (.dict acc, pos + 1, raw)
          else
            match parseString (data.drop pos) with
            | .error e => .error (.dictKey e)
            | .ok (key, consumedKey) =>
                if data.length ≤ pos + consumedKey then .error .invalidDict
                else
                  match parseValue fuel depth raw (data.drop (pos + consumedKey)) with
                  | .error e => .error (.dictValue key e)
                  | .ok (v, consumedVal, raw1) =>
                      parseDictLoop fuel depth
                        (if key = infoKey ∧ depth = 1 then
                          some ((data.drop (pos + consumedKey)).take consumedVal)
                        else raw1)
                        data (pos + consumedKey + consumedVal)
                        (mapInsert key v acc)) := rfl



set_option maxHeartbeats 2000000 in
theorem parse_bound_append (fuel : Nat) :
    (∀ depth raw data v c r, parseValue fuel depth raw data = .ok (v, c, r) →
        c ≤ data.length ∧
        ∀ extra, parseValue fuel depth raw (data ++ extra) = .ok (v, c, r)) ∧
    (∀ depth raw data v c r, parseList fuel depth raw data = .ok (v, c, r) →
        c ≤ data.length ∧
        ∀ extra, parseList fuel depth raw (data ++ extra) = .ok (v, c, r)) ∧
    (∀ depth raw data v c r, parseDict fuel depth raw data = .ok (v, c, r) →
        c ≤ data.length ∧
        ∀ extra, parseDict fuel depth raw (data ++ extra) = .ok (v, c, r)) ∧
    (∀ depth raw data pos acc v c r, pos ≤ data.length →
        parseListLoop fuel depth raw data pos acc = .ok (v, c, r) →
        c ≤ data.length ∧
        ∀ extra, parseListLoop fuel depth raw (data ++ extra) pos acc = .ok (v, c, r)) ∧
    (∀ depth raw data pos acc v c r, pos ≤ data.length →
        parseDictLoop fuel depth raw data pos acc = .ok (v, c, r) →
        c ≤ data.length ∧
        ∀ extra, parseDictLoop fuel depth raw (data ++ extra) pos acc = .ok (v, c, r)) := by
  induction fuel with
  | zero =>
      refine ⟨?_, ?_, ?_, ?_, ?_⟩ <;> intros <;>
        simp_all [parseValue_zero, parseList_zero, parseDict_zero, parseListLoop_zero,
          parseDictLoop_zero]
  | succ fuel ih =>
      obtain ⟨ihV, ihL, ihD, ihLL, ihDL⟩ := ih
      refine ⟨?_, ?_, ?_, ?_, ?_⟩
      · -- parseValue
        intro depth raw data v c r h
        match data with
        | [] =>
            rw [parseValue_nil] at h
            exact absurd h (by simp)
        | b :: tail =>
            rw [parseValue_cons] at h
            by_cases hb1 : b = 105
            · rw [if_pos hb1] at h
              cases hpi : parseInteger (b :: tail) with
              | error e =>
                  rw [hpi] at h
                  exact absurd h (by simp [Except.map])
              | ok p =>
                  obtain ⟨n, cn⟩ := p
                  rw [hpi] at h
                  simp only [Except.map, Except.ok.injEq, Prod.mk.injEq] at h
                  obtain ⟨rfl, rfl, rfl⟩ := h
                  refine ⟨parseInteger_le hpi, fun extra => ?_⟩
                  have : parseValue (fuel + 1) depth raw (b :: (tail ++ extra)) =
                      .ok (.int n, cn, raw) := by
                    rw [parseValue_cons, if_pos hb1,
                      show parseInteger (b :: (tail ++ extra)) = .ok (n, cn) from
                        parseInteger_append hpi]
                    rfl
                  exact this
            · rw [if_neg hb1] at h
              by_cases hdig : isDigit b
              · rw [if_pos hdig] at h
                cases hps : parseString (b :: tail) with
                | error e =>
                    rw [hps] at h
                    exact absurd h (by simp [Except.map])
                | ok p =>
                    obtain ⟨sb, cn⟩ := p
                    rw [hps] at h
                    simp only [Except.map, Except.ok.injEq, Prod.mk.injEq] at h
                    obtain ⟨rfl, rfl, rfl⟩ := h
                    refine ⟨parseString_le hps, fun extra => ?_⟩
                    have : parseValue (fuel + 1) depth raw (b :: (tail ++ extra)) =
                        .ok (.str sb, cn, raw) := by
                      rw [parseValue_cons, if_neg hb1, if_pos hdig,
                        show parseString (b :: (tail ++ extra)) = .ok (sb, cn) from
                          parseString_append hps]
                      rfl
                    exact this
              · rw [if_neg hdig] at h
                by_cases hb3 : b = 108
                · rw [if_pos hb3] at h
                  obtain ⟨hb, happ⟩ := ihL depth raw (b :: tail) v c r h
                  refine ⟨hb, fun extra => ?_⟩
                  have : parseValue (fuel + 1) depth raw (b :: (tail ++ extra)) =
                      .ok (v, c, r) := by
                    rw [parseValue_cons, if_neg hb1, if_neg hdig, if_pos hb3]
                    exact happ extra
                  exact this
                · rw [if_neg hb3] at h
                  by_cases hb4 : b = 100
                  · rw [if_pos hb4] at h
                    obtain ⟨hb, happ⟩ := ihD depth raw (b :: tail) v c r h
                    refine ⟨hb, fun extra => ?_⟩
                    have : parseValue (fuel + 1) depth raw (b :: (tail ++ extra)) =
                        .ok (v, c, r) := by
                      rw [parseValue_cons, if_neg hb1, if_neg hdig, if_neg hb3, if_pos hb4]
                      exact happ extra
                    exact this
                  · rw [if_neg hb4] at h
                    exact absurd h (by simp)
      · -- parseList
        intro depth raw data v c r h
        rw [parseList_succ] at h
        by_cases hdep : MaxDepth < depth + 1
        · rw [if_pos hdep] at h
          exact absurd h (by simp)
        rw [if_neg hdep] at h
        by_cases hshape : data.length < 2 ∨ data.head? ≠ some 108
        · rw [if_pos hshape] at h
          exact absurd h (by simp)
        rw [if_neg hshape] at h
        push_neg at hshape
        obtain ⟨h1, h2⟩ := hshape
        obtain ⟨hb, happ⟩ := ihLL (depth + 1) raw data 1 [] v c r (by omega) h
        refine ⟨hb, fun extra => ?_⟩
        rw [parseList_succ, if_neg hdep, if_neg ?_]
        · exact happ extra
        · cases data with
          | nil => simp at h1
          | cons d0 dt =>
              push_neg
              refine ⟨by
                simp only [List.length_cons] at h1
                simp only [List.cons_append, List.length_cons, List.length_append]
                omega, by simpa using h2⟩
      · -- parseDict
        intro depth raw data v c r h
        rw [parseDict_succ] at h
        by_cases hdep : MaxDepth < depth + 1
        · rw [if_pos hdep] at h
          exact absurd h (by simp)
        rw [if_neg hdep] at h
        by_cases hshape : data.length < 2 ∨ data.head? ≠ some 100
        · rw [if_pos hshape] at h
          exact absurd h (by simp)
        rw [if_neg hshape] at h
        push_neg at hshape
        obtain ⟨h1, h2⟩ := hshape
        obtain ⟨hb, happ⟩ := ihDL (depth + 1) raw data 1 [] v c r (by omega) h
        refine ⟨hb, fun extra => ?_⟩
        rw [parseDict_succ, if_neg hdep, if_neg ?_]
        · exact happ extra
        · cases data with
          | nil => simp at h1
          | cons d0 dt =>
              push_neg
              refine ⟨by
                simp only [List.length_cons] at h1
                simp only [List.cons_append, List.length_cons, List.length_append]
                omega, by simpa using h2⟩
      · -- parseListLoop
        intro depth raw data pos acc v c r hpos h
        rw [parseListLoop_succ] at h
        cases hget : data.get? pos with
        | none =>
            rw [hget] at h
            exact absurd h (by simp)
        | some b =>
            rw [hget] at h
            dsimp only at h
            have hplt : pos < data.length := get?_some_lt hget
            by_cases hb : b = 101
            · rw [if_pos hb] at h
              simp only [Except.ok.injEq, Prod.mk.injEq] at h
              obtain ⟨rfl, rfl, rfl⟩ := h
              refine ⟨by omega, fun extra => ?_⟩
              rw [parseListLoop_succ, get?_append_l hplt, hget]
              dsimp only
              rw [if_pos hb]
            · rw [if_neg hb] at h
              cases hpv : parseValue fuel depth raw (data.drop pos) with
              | error e =>
                  rw [hpv] at h
                  exact absurd h (by simp)
              | ok t =>
                  obtain ⟨v', consumed, raw'⟩ := t
                  rw [hpv] at h
                  dsimp only at h
                  obtain ⟨hbV, happV⟩ := ihV depth raw (data.drop pos) v' consumed raw' hpv
                  have hcb : consumed ≤ data.length - pos := by
                    simpa using hbV
                  obtain ⟨hbL, happL⟩ := ihLL depth raw' data (pos + consumed)
                    (acc ++ [v']) v c r (by omega) h
                  refine ⟨hbL, fun extra => ?_⟩
                  rw [parseListLoop_succ, get?_append_l hplt, hget]
                  dsimp only
                  rw [if_neg hb]
                  have hdrop : (data ++ extra).drop pos = data.drop pos ++ extra :=
                    List.drop_append_of_le_length (by omega)
                  rw [hdrop, happV extra]
                  dsimp only
                  exact happL extra
      · -- parseDictLoop
        intro depth raw data pos acc v c r hpos h
        rw [parseDictLoop_succ] at h
        cases hget : data.get? pos with
        | none =>
            rw [hget] at h
            exact absurd h (by simp)
        | some b =>
            rw [hget] at h
            dsimp only at h
            have hplt : pos < data.length := get?_some_lt hget
            by_cases hb : b = 101
            · rw [if_pos hb] at h
              simp only [Except.ok.injEq, Prod.mk.injEq] at h
              obtain ⟨rfl, rfl, rfl⟩ := h
              refine ⟨by omega, fun extra => ?_⟩
              rw [parseDictLoop_succ, get?_append_l hplt, hget]
              dsimp only
              rw [if_pos hb]
            · rw [if_neg hb] at h
              cases hps : parseString (data.drop pos) with
              | error e =>
                  rw [hps] at h
                  exact absurd h (by simp)
              | ok t =>
                  obtain ⟨key, ck⟩ := t
                  rw [hps] at h
                  dsimp only at h
                  have hck : ck ≤ data.length - pos := by
                    simpa using parseString_le hps
                  by_cases hlen : data.length ≤ pos + ck
                  · rw [if_pos hlen] at h
                    exact absurd h (by simp)
                  rw [if_neg hlen] at h
                  cases hpv : parseValue fuel depth raw (data.drop (pos + ck)) with
                  | error e =>
                      rw [hpv] at h
                      exact absurd h (by simp)
                  | ok t2 =>
                      obtain ⟨v', cv, raw1⟩ := t2
                      rw [hpv] at h
                      dsimp only at h
                      obtain ⟨hbV, happV⟩ := ihV depth raw (data.drop (pos + ck)) v' cv
                        raw1 hpv
                      have hcv : cv ≤ data.length - (pos + ck) := by
                        simpa using hbV
                      obtain ⟨hbD, happD⟩ := ihDL depth
                        (if key = infoKey ∧ depth = 1 then
                          some ((data.drop (pos + ck)).take cv)
                        else raw1)
                        data (pos + ck + cv) (mapInsert key v' acc) v c r (by omega) h
                      refine ⟨hbD, fun extra => ?_⟩
                      rw [parseDictLoop_succ, get?_append_l hplt, hget]
                      dsimp only
                      rw [if_neg hb]
                      have hdropk : (data ++ extra).drop pos = data.drop pos ++ extra :=
                        List.drop_append_of_le_length (by omega)
                      rw [hdropk, parseString_append hps]
                      dsimp only
                      rw [if_neg (by simp only [List.length_append]; omega)]
                      have hdropv : (data ++ extra).drop (pos + ck) =
                          data.drop (pos + ck) ++ extra :=
                        List.drop_append_of_le_length (by omega)
                      rw [hdropv, happV extra]
                      dsimp only
                      have hslice : (data.drop (pos + ck) ++ extra).take cv =
                          (data.drop (pos + ck)).take cv :=
                        List.take_append_of_le_length (by
                          simp only [List.length_drop]; omega)
                      rw [hslice]
                      exact happD extra



theorem mapLookup_mapInsert_self (k : List UInt8) (v : BVal)
    (m : List (List UInt8 × BVal)) : mapLookup k (mapInsert k v m) = some v := by
  induction m with
  | nil => simp [mapInsert, mapLookup]
  | cons p rest ih =>
      obtain ⟨k', v'⟩ := p
      by_cases hk : k' = k
      · simp [mapInsert, mapLookup, hk]
      · simp [mapInsert, mapLookup, hk, ih]

theorem mapLookup_mapInsert_ne (k k' : List UInt8) (v : BVal)
    (m : List (List UInt8 × BVal)) (h : k' ≠ k) :
    mapLookup k (mapInsert k' v m) = mapLookup k m := by
  induction m with
  | nil => simp [mapInsert, mapLookup, h]
  | cons p rest ih =>
      obtain ⟨k0, v0⟩ := p
      by_cases hk : k0 = k'
      · subst hk
        simp [mapInsert, mapLookup, h]
      · by_cases hk2 : k0 = k
        · subst hk2
          simp [mapInsert, mapLookup, hk, Ne.symm h]
        · simp [mapInsert, mapLookup, hk, hk2, ih]

theorem parseListLoop_isList (fuel : Nat) :
    ∀ depth raw data pos acc v c r,
      parseListLoop fuel depth raw data pos acc = .ok (v, c, r) →
      ∃ xs, v = .list xs := by
  induction fuel with
  | zero =>
      intro depth raw data pos acc v c r h
      rw [parseListLoop_zero] at h
      exact absurd h (by simp)
  | succ fuel ih =>
      intro depth raw data pos acc v c r h
      rw [parseListLoop_succ] at h
      cases hget : data.get? pos with
      | none => rw [hget] at h; exact absurd h (by simp)
      | some b =>
          rw [hget] at h
          dsimp only at h
          by_cases hb : b = 101
          · rw [if_pos hb] at h
            simp only [Except.ok.injEq, Prod.mk.injEq] at h
            exact ⟨acc, h.1.symm⟩
          · rw [if_neg hb] at h
            cases hpv : parseValue fuel depth raw (data.drop pos) with
            | error e => rw [hpv] at h; exact absurd h (by simp)
            | ok t =>
                obtain ⟨v', consumed, raw'⟩ := t
                rw [hpv] at h
                dsimp only at h
                exact ih depth raw' data (pos + consumed) (acc ++ [v']) v c r h

theorem raw_preserved (fuel : Nat) :
    (∀ depth raw data v c r, 1 ≤ depth →
        parseValue fuel depth raw data = .ok (v, c, r) → r = raw) ∧
    (∀ depth raw data v c r, 1 ≤ depth →
        parseList fuel depth raw data = .ok (v, c, r) → r = raw) ∧
    (∀ depth raw data v c r, 1 ≤ depth →
        parseDict fuel depth raw data = .ok (v, c, r) → r = raw) ∧
    (∀ depth raw data pos acc v c r, 2 ≤ depth →
        parseListLoop fuel depth raw data pos acc = .ok (v, c, r) → r = raw) ∧
    (∀ depth raw data pos acc v c r, 2 ≤ depth →
        parseDictLoop fuel depth raw data pos acc = .ok (v, c, r) → r = raw) := by
  induction fuel with
  | zero =>
      refine ⟨?_, ?_, ?_, ?_, ?_⟩ <;> intros <;>
        simp_all [parseValue_zero, parseList_zero, parseDict_zero, parseListLoop_zero,
          parseDictLoop_zero]
  | succ fuel ih =>
      obtain ⟨ihV, ihL, ihD, ihLL, ihDL⟩ := ih
      refine ⟨?_, ?_, ?_, ?_, ?_⟩
      · intro depth raw data v c r hd h
        match data with
        | [] =>
            rw [parseValue_nil] at h
            exact absurd h (by simp)
        | b :: tail =>
            rw [parseValue_cons] at h
            by_cases hb1 : b = 105
            · rw [if_pos hb1] at h
              cases hpi : parseInteger (b :: tail) with
              | error e => rw [hpi] at h; exact absurd h (by simp [Except.map])
              | ok p =>
                  rw [hpi] at h
                  simp only [Except.map, Except.ok.injEq, Prod.mk.injEq] at h
                  exact h.2.2.symm
            · rw [if_neg hb1] at h
              by_cases hdig : isDigit b
              · rw [if_pos hdig] at h
                cases hps : parseString (b :: tail) with
                | error e => rw [hps] at h; exact absurd h (by simp [Except.map])
                | ok p =>
                    rw [hps] at h
                    simp only [Except.map, Except.ok.injEq, Prod.mk.injEq] at h
                    exact h.2.2.symm
              · rw [if_neg hdig] at h
                by_cases hb3 : b = 108
                · rw [if_pos hb3] at h
                  exact ihL depth raw (b :: tail) v c r hd h
                · rw [if_neg hb3] at h
                  by_cases hb4 : b = 100
                  · rw [if_pos hb4] at h
                    exact ihD depth raw (b :: tail) v c r hd h
                  · rw [if_neg hb4] at h
                    exact absurd h (by simp)
      · intro depth raw data v c r hd h
        rw [parseList_succ] at h
        by_cases hdep : MaxDepth < depth + 1
        · rw [if_pos hdep] at h; exact absurd h (by simp)
        rw [if_neg hdep] at h
        by_cases hshape : data.length < 2 ∨ data.head? ≠ some 108
        · rw [if_pos hshape] at h; exact absurd h (by simp)
        rw [if_neg hshape] at h
        exact ihLL (depth + 1) raw data 1 [] v c r (by omega) h
      · intro depth raw data v c r hd h
        rw [parseDict_succ] at h
        by_cases hdep : MaxDepth < depth + 1
        · rw [if_pos hdep] at h; exact absurd h (by simp)
        rw [if_neg hdep] at h
        by_cases hshape : data.length < 2 ∨ data.head? ≠ some 100
        · rw [if_pos hshape] at h; exact absurd h (by simp)
        rw [if_neg hshape] at h
        exact ihDL (depth + 1) raw data 1 [] v c r (by omega) h
      · intro depth raw data pos acc v c r hd h
        rw [parseListLoop_succ] at h
        cases hget : data.get? pos with
        | none => rw [hget] at h; exact absurd h (by simp)
        | some b =>
            rw [hget] at h
            dsimp only at h
            by_cases hb : b = 101
            · rw [if_pos hb] at h
              simp only [Except.ok.injEq, Prod.mk.injEq] at h
              exact h.2.2.symm
            · rw [if_neg hb] at h
              cases hpv : parseValue fuel depth raw (data.drop pos) with
              | error e => rw [hpv] at h; exact absurd h (by simp)
              | ok t =>
                  obtain ⟨v', consumed, raw'⟩ := t
                  rw [hpv] at h
                  dsimp only at h
                  have h1 : raw' = raw := ihV depth raw (data.drop pos) v' consumed raw'
                    (by omega) hpv
                  have h2 : r = raw' := ihLL depth raw' data (pos + consumed)
                    (acc ++ [v']) v c r hd h
                  rw [h2, h1]
      · intro depth raw data pos acc v c r hd h
        rw [parseDictLoop_succ] at h
        cases hget : data.get? pos with
        | none => rw [hget] at h; exact absurd h (by simp)
        | some b =>
            rw [hget] at h
            dsimp only at h
            by_cases hb : b = 101
            · rw [if_pos hb] at h
              simp only [Except.ok.injEq, Prod.mk.injEq] at h
              exact h.2.2.symm
            · rw [if_neg hb] at h
              cases hps : parseString (data.drop pos) with
              | error e => rw [hps] at h; exact absurd h (by simp)
              | ok t =>
                  obtain ⟨key, ck⟩ := t
                  rw [hps] at h
                  dsimp only at h
                  by_cases hlen : data.length ≤ pos + ck
                  · rw [if_pos hlen] at h; exact absurd h (by simp)
                  rw [if_neg hlen] at h
                  cases hpv : parseValue fuel depth raw (data.drop (pos + ck)) with
                  | error e => rw [hpv] at h; exact absurd h (by simp)
                  | ok t2 =>
                      obtain ⟨v', cv, raw1⟩ := t2
                      rw [hpv] at h
                      dsimp only at h
                      rw [if_neg (by
                        rintro ⟨-, hdep1⟩
                        omega)] at h
                      have h1 : raw1 = raw := ihV depth raw (data.drop (pos + ck)) v' cv
                        raw1 (by omega) hpv
                      have h2 : r = raw1 := ihDL depth raw1 data (pos + ck + cv)
                        (mapInsert key v' acc) v c r hd h
                      rw [h2, h1]



theorem dictLoop_capture (fuel : Nat) : ∀ raw data pos acc res c rawOut,
    parseDictLoop fuel 1 raw data pos acc = .ok (res, c, rawOut) →
    InfoCapture data acc raw →
    ∃ m, res = .dict m ∧ InfoCapture data m rawOut := by
  induction fuel with
  | zero =>
      intro raw data pos acc res c rawOut h
      rw [parseDictLoop_zero] at h
      exact absurd h (by simp)
  | succ fuel ih =>
      intro raw data pos acc res c rawOut h hinv
      rw [parseDictLoop_succ] at h
      cases hget : data.get? pos with
      | none => rw [hget] at h; exact absurd h (by simp)
      | some b =>
          rw [hget] at h
          dsimp only at h
          by_cases hb : b = 101
          · rw [if_pos hb] at h
            simp only [Except.ok.injEq, Prod.mk.injEq] at h
            obtain ⟨rfl, -, rfl⟩ := h
            exact ⟨acc, rfl, hinv⟩
          · rw [if_neg hb] at h
            cases hps : parseString (data.drop pos) with
            | error e => rw [hps] at h; exact absurd h (by simp)
            | ok t =>
                obtain ⟨key, ck⟩ := t
                rw [hps] at h
                dsimp only at h
                by_cases hlen : data.length ≤ pos + ck
                · rw [if_pos hlen] at h; exact absurd h (by simp)
                rw [if_neg hlen] at h
                cases hpv : parseValue fuel 1 raw (data.drop (pos + ck)) with
                | error e => rw [hpv] at h; exact absurd h (by simp)
                | ok t2 =>
                    obtain ⟨v', cv, raw1⟩ := t2
                    rw [hpv] at h
                    dsimp only at h
                    have hraw1 : raw1 = raw :=
                      (raw_preserved fuel).1 1 raw (data.drop (pos + ck)) v' cv raw1
                        le_rfl hpv
                    have hcv : cv ≤ data.length - (pos + ck) := by
                      have := ((parse_bound_append fuel).1 1 raw
                        (data.drop (pos + ck)) v' cv raw1 hpv).1
                      simpa using this
                    by_cases hkey : key = infoKey
                    · subst hkey
                      rw [if_pos ⟨rfl, rfl⟩] at h
                      refine ih _ data (pos + ck + cv) (mapInsert infoKey v' acc) res c
                        rawOut h (Or.inr ?_)
                      exact ⟨pos + ck, cv, v', mapLookup_mapInsert_self infoKey v' acc,
                        rfl, by omega, fuel, raw, raw1, hpv⟩
                    · rw [if_neg (by rintro ⟨hk, -⟩; exact hkey hk)] at h
                      rw [hraw1] at h
                      refine ih raw data (pos + ck + cv) (mapInsert key v' acc) res c
                        rawOut h ?_
                      rcases hinv with ⟨hl, hr⟩ | ⟨p, n, v0, hl, hr, hle, wit⟩
                      · exact Or.inl ⟨by
                          rw [mapLookup_mapInsert_ne infoKey key v' acc
                            (fun hk => hkey hk)]
                          exact hl, hr⟩
                      · exact Or.inr ⟨p, n, v0, by
                          rw [mapLookup_mapInsert_ne infoKey key v' acc
                            (fun hk => hkey hk)]
                          exact hl, hr, hle, wit⟩






/-- C10 (confirmed): if the input begins with one well-formed bencode
value (a prefix on which `parseValue` succeeds), `Decoder.Decode` returns
that same value whatever bytes are appended after it; the trailing bytes
never cause an error or change the result. -/
theorem C10_decode_ignores_trailing (fuel : Nat) (data extra : List UInt8) (v : BVal)
    (c : Nat) (r : Option (List UInt8))
    (h : parseValue fuel 0 none data = .ok (v, c, r)) :
    Decode fuel (data ++ extra) = .ok v := by
  have happ := ((parse_bound_append fuel).1 0 none data v c r h).2 extra
  unfold Decode decodeWithRaw
  rw [happ]
  rfl

/-- C10 (witness): `i5e` followed by the junk `XYZ` still decodes to
the integer 5. -/
theorem C10_decode_ignores_trailing_witness :
    Decode 50 (strBytes ("i5e") ++ strBytes ("XYZ")) = .ok (.int 5) :=
  C10_decode_ignores_trailing 50 (strBytes ("i5e")) (strBytes ("XYZ")) (.int 5) 3 none rfl



/-- C1 (amended): for every input whose top-level value is a dictionary,
if decoding sets `RawInfo` then `RawInfo` is the verbatim slice
`data[pos, pos+n)` of the original input, that slice parses (at depth 1)
to exactly the value bound to `info` in the decoded dictionary while
consuming exactly its own `n` bytes (so `SHA1(input[pos, pos+n))` is the
canonical info-hash), and `RawInfo` is set exactly when the top-level
dictionary contains the key `info`; for the fixture
`d8:announce3:url4:infod4:name1:ae5:extra1:xe`, the captured slice is
exactly `d4:name1:ae`, which is 11 bytes (not 10 as claimed). -/
theorem C1_rawinfo_capture :
    (∀ (fuel : Nat) (data : List UInt8) (m : List (List UInt8 × BVal)) (c : Nat)
        (rawOut : Option (List UInt8)),
        decodeWithRaw fuel data = .ok (.dict m, c, rawOut) →
        (rawOut = none ∧ mapLookup infoKey m = none) ∨
        (∃ r pos v, rawOut = some r ∧ mapLookup infoKey m = some v ∧
          pos + r.length ≤ data.length ∧ r = (data.drop pos).take r.length ∧
          ∃ fuel' raw₀ raw₁,
            parseValue fuel' 1 raw₀ (data.drop pos) = .ok (v, r.length, raw₁))) ∧
    (decodeWithRaw 50 fixtureC1).map (fun p => p.2.2) =
      .ok (some (strBytes ("d4:name1:ae"))) ∧
    (strBytes ("d4:name1:ae")).length = 11 := by
  refine ⟨?_, rfl, rfl⟩
  intro fuel data m c rawOut h
  unfold decodeWithRaw at h
  match fuel with
  | 0 =>
      rw [parseValue_zero] at h
      exact absurd h (by simp)
  | fuel + 1 =>
      match data with
      | [] =>
          rw [parseValue_nil] at h
          exact absurd h (by simp)
      | b :: tail =>
          rw [parseValue_cons] at h
          by_cases hb1 : b = 105
          · rw [if_pos hb1] at h
            cases hpi : parseInteger (b :: tail) with
            | error e => rw [hpi] at h; exact absurd h (by simp [Except.map])
            | ok p => rw [hpi] at h; simp [Except.map] at h
          · rw [if_neg hb1] at h
            by_cases hdig : isDigit b
            · rw [if_pos hdig] at h
              cases hps : parseString (b :: tail) with
              | error e => rw [hps] at h; exact absurd h (by simp [Except.map])
              | ok p => rw [hps] at h; simp [Except.map] at h
            · rw [if_neg hdig] at h
              by_cases hb3 : b = 108
              · rw [if_pos hb3] at h
                match fuel with
                | 0 =>
                    rw [parseList_zero] at h
                    exact absurd h (by simp)
                | fuel + 1 =>
                    rw [parseList_succ] at h
                    rw [if_neg (by decide)] at h
                    by_cases hshape : (b :: tail).length < 2 ∨ (b :: tail).head? ≠ some 108
                    · rw [if_pos hshape] at h
                      exact absurd h (by simp)
                    · rw [if_neg hshape] at h
                      obtain ⟨xs, hxs⟩ := parseListLoop_isList fuel 1 none (b :: tail) 1 []
                        (.dict m) c rawOut h
                      exact absurd hxs (by simp)
              · rw [if_neg hb3] at h
                by_cases hb4 : b = 100
                · rw [if_pos hb4] at h
                  match fuel with
                  | 0 =>
                      rw [parseDict_zero] at h
                      exact absurd h (by simp)
                  | fuel + 1 =>
                    rw [parseDict_succ] at h
                    rw [if_neg (by decide)] at h
                    by_cases hshape : (b :: tail).length < 2 ∨ (b :: tail).head? ≠ some 100
                    · rw [if_pos hshape] at h
                      exact absurd h (by simp)
                    · rw [if_neg hshape] at h
                      obtain ⟨m', hres, hinv⟩ := dictLoop_capture fuel none (b :: tail) 1 []
                        (.dict m) c rawOut h (Or.inl ⟨rfl, rfl⟩)
                      have hm : m = m' := by
                        cases hres
                        rfl
                      subst hm
                      rcases hinv with ⟨hl, hr⟩ |
                        ⟨pos, n, v0, hl, hr, hle, fuel', r0, r1, hw⟩
                      · exact Or.inl ⟨hr, hl⟩
                      · have hrl : ((List.drop pos (b :: tail)).take n).length = n := by
                          simp only [List.length_take, List.length_drop]
                          omega
                        refine Or.inr ⟨(List.drop pos (b :: tail)).take n, pos, v0, hr, hl,
                          by omega, by rw [hrl], fuel', r0, r1, ?_⟩
                        rw [hrl]
                        exact hw
                · rw [if_neg hb4] at h
                  exact absurd h (by simp)

/-- C1 (counterexample): on the claim's own fixture the captured info
slice has length 11, refuting the claimed “10 bytes”. -/
theorem C1_fixture_not_ten_bytes :
    (decodeWithRaw 50 fixtureC1).map (fun p => p.2.2.map List.length) = .ok (some 11) ∧
    (11 : Nat) ≠ 10 :=
  ⟨rfl, by decide⟩

/-- C1 (witness): the general capture statement applied to the fixture. -/
theorem C1_rawinfo_capture_witness :
    ((some (strBytes ("d4:name1:ae")) : Option (List UInt8)) = none ∧
      mapLookup infoKey
        [(strBytes ("announce"), BVal.str (strBytes ("url"))),
         (strBytes ("info"), BVal.dict [(strBytes ("name"), BVal.str (strBytes ("a")))]),
         (strBytes ("extra"), BVal.str (strBytes ("x")))] = none) ∨
    (∃ r pos v, (some (strBytes ("d4:name1:ae")) : Option (List UInt8)) = some r ∧
      mapLookup infoKey
        [(strBytes ("announce"), BVal.str (strBytes ("url"))),
         (strBytes ("info"), BVal.dict [(strBytes ("name"), BVal.str (strBytes ("a")))]),
         (strBytes ("extra"), BVal.str (strBytes ("x")))] = some v ∧
      pos + r.length ≤ fixtureC1.length ∧ r = (fixtureC1.drop pos).take r.length ∧
      ∃ fuel' raw₀ raw₁,
        parseValue fuel' 1 raw₀ (fixtureC1.drop pos) = .ok (v, r.length, raw₁)) :=
  C1_rawinfo_capture.1 50 fixtureC1
    [(strBytes ("announce"), BVal.str (strBytes ("url"))),
     (strBytes ("info"), BVal.dict [(strBytes ("name"), BVal.str (strBytes ("a")))]),
     (strBytes ("extra"), BVal.str (strBytes ("x")))]
    44 (some (strBytes ("d4:name1:ae"))) rfl


end TorrentX
